import Mathlib

/-
Verification of the MovingSimulation robot manipulator core
(robot_kinematics.py, trajectory_planner.py, utils.py, main.py).

The Python modules are shallowly embedded over an arbitrary linear ordered
field: numpy float arithmetic is modelled as exact field arithmetic, python
lists as Lean lists.  Transcendental helpers (np.cos, np.sin, np.radians,
np.degrees, np.sqrt) are passed as explicit function parameters so that every
definition stays computable; theorems instantiate them with the real
functions where needed, and witnesses instantiate them at rational test
points.
-/

namespace Robotics

/-! ## Trajectory planner (trajectory_planner.py) -/

section Trajectory

variable {α : Type} [LinearOrderedField α] [FloorRing α]

/-- The boundary-condition system solved by plan_quintic_trajectory for one
joint (trajectory_planner.py lines 103-112): c is a solution of A c = b for
the 6 by 6 matrix A and right-hand side b = [th0, om0, al0, thf, omf, alf]
built there, written out row by row. -/
def quinticSystem (th0 om0 al0 thf omf alf T : α) (c : Fin 6 → α) : Prop :=
  c 0 = th0 ∧
  c 1 = om0 ∧
  2 * c 2 = al0 ∧
  c 0 + T * c 1 + T^2 * c 2 + T^3 * c 3 + T^4 * c 4 + T^5 * c 5 = thf ∧
  c 1 + 2*T * c 2 + 3*T^2 * c 3 + 4*T^3 * c 4 + 5*T^4 * c 5 = omf ∧
  2 * c 2 + 6*T * c 3 + 12*T^2 * c 4 + 20*T^3 * c 5 = alf

/-- Coefficients a0..a5 returned by np.linalg.solve(A, b) in
plan_quintic_trajectory: quinticSystem_coeffs and quinticSystem_unique below
show this is the unique solution of the boundary system when T is nonzero,
hence exactly what the source computes. -/
def quinticCoeffs (th0 om0 al0 thf omf alf T : α) : Fin 6 → α := fun i =>
  match i with
  | ⟨0, _⟩ => th0
  | ⟨1, _⟩ => om0
  | ⟨2, _⟩ => al0 / 2
  | ⟨3, _⟩ =>
      (20 * (thf - th0) - (8 * omf + 12 * om0) * T - (3 * al0 - alf) * T^2) / (2 * T^3)
  | ⟨4, _⟩ =>
      (-30 * (thf - th0) + (14 * omf + 16 * om0) * T + (3 * al0 - 2 * alf) * T^2) / (2 * T^4)
  | ⟨5, _⟩ =>
      (12 * (thf - th0) - 6 * (omf + om0) * T + (alf - al0) * T^2) / (2 * T^5)

/-- quinticCoeffs solves the boundary system of the source. -/
theorem quinticSystem_coeffs (th0 om0 al0 thf omf alf T : α) (hT : T ≠ 0) :
    quinticSystem th0 om0 al0 thf omf alf T
      (quinticCoeffs th0 om0 al0 thf omf alf T) := by
  refine ⟨rfl, rfl, ?_, ?_, ?_, ?_⟩ <;>
    simp only [quinticCoeffs] <;> field_simp <;> ring

/-- The boundary system has at most one solution when T is nonzero, so
quinticCoeffs is exactly what np.linalg.solve returns there. -/
theorem quinticSystem_unique (th0 om0 al0 thf omf alf T : α) (hT : T ≠ 0)
    (x y : Fin 6 → α) (hx : quinticSystem th0 om0 al0 thf omf alf T x)
    (hy : quinticSystem th0 om0 al0 thf omf alf T y) : x = y := by
  obtain ⟨hx0, hx1, hx2, hx3, hx4, hx5⟩ := hx
  obtain ⟨hy0, hy1, hy2, hy3, hy4, hy5⟩ := hy
  have e0 : x 0 = y 0 := by rw [hx0, hy0]
  have e1 : x 1 = y 1 := by rw [hx1, hy1]
  have e2 : x 2 = y 2 := by linarith
  have d3 : T^3 * (x 3 - y 3) + T^4 * (x 4 - y 4) + T^5 * (x 5 - y 5) = 0 := by
    linear_combination hx3 - hy3 - (e0 + T * e1 + T^2 * e2)
  have d4 : 3*T^2 * (x 3 - y 3) + 4*T^3 * (x 4 - y 4) + 5*T^4 * (x 5 - y 5) = 0 := by
    linear_combination hx4 - hy4 - (e1 + 2*T * e2)
  have d5 : 6*T * (x 3 - y 3) + 12*T^2 * (x 4 - y 4) + 20*T^3 * (x 5 - y 5) = 0 := by
    linear_combination hx5 - hy5 - 2 * e2
  have hT5 : (2 : α) * T^5 ≠ 0 := by positivity
  have e5 : x 5 = y 5 := by
    have hw : 2 * T^5 * (x 5 - y 5) = 0 := by
      linear_combination T^2 * d5 - 6*T * d4 + 12 * d3
    have := (mul_eq_zero.mp hw).resolve_left hT5
    linarith
  have e4 : x 4 = y 4 := by
    have hv : T^4 * (x 4 - y 4) = 0 := by
      linear_combination T * d4 - 3 * d3 - 2*T^5 * e5
    have := (mul_eq_zero.mp hv).resolve_left (pow_ne_zero _ hT)
    linarith
  have e3 : x 3 = y 3 := by
    have hu : T^3 * (x 3 - y 3) = 0 := by
      linear_combination d3 - T^4 * e4 - T^5 * e5
    have := (mul_eq_zero.mp hu).resolve_left (pow_ne_zero _ hT)
    linarith
  funext i
  match i with
  | ⟨0, _⟩ => exact e0
  | ⟨1, _⟩ => exact e1
  | ⟨2, _⟩ => exact e2
  | ⟨3, _⟩ => exact e3
  | ⟨4, _⟩ => exact e4
  | ⟨5, _⟩ => exact e5

/-- Position polynomial evaluated from the six coefficients exactly as in
trajectory_planner.py line 128. -/
def posAt (c : Fin 6 → α) (t : α) : α :=
  c 0 + c 1 * t + c 2 * t^2 + c 3 * t^3 + c 4 * t^4 + c 5 * t^5

/-- Velocity by analytic derivative, source line 132. -/
def velAt (c : Fin 6 → α) (t : α) : α :=
  c 1 + 2 * c 2 * t + 3 * c 3 * t^2 + 4 * c 4 * t^3 + 5 * c 5 * t^4

/-- Acceleration by analytic derivative, source line 136. -/
def accAt (c : Fin 6 → α) (t : α) : α :=
  2 * c 2 + 6 * c 3 * t + 12 * c 4 * t^2 + 20 * c 5 * t^3

/-- Jerk by analytic derivative, source line 140. -/
def jerkAt (c : Fin 6 → α) (t : α) : α :=
  6 * c 3 + 24 * c 4 * t + 60 * c 5 * t^2

/-- Sampling grid np.arange(0, duration + dt, dt): the values k * dt with
k * dt < duration + dt, i.e. k ranging below the ceiling of
(duration + dt) / dt. -/
def timeArray (duration dt : α) : List α :=
  (List.range (⌈(duration + dt) / dt⌉.toNat)).map (fun (k : ℕ) => (k : α) * dt)

/-- Result record of plan_quintic_trajectory (the dict built at source lines
142-151); sampled rows are time-major as in the numpy arrays. -/
structure TrajData (α : Type) where
  time : List α
  positions : List (List α)
  velocities : List (List α)
  accelerations : List (List α)
  jerks : List (List α)
  coefficients : List (Fin 6 → α)
  duration : α
  n_joints : ℕ

/-- plan_quintic_trajectory with all boundary lists explicit.  Per joint the
boundary system is solved (quinticCoeffs) and the four profiles are sampled
on the arange grid by direct polynomial evaluation.  Out-of-range list
indexing, which would raise in the source, is totalised with getD. -/
def plan_quintic_trajectory (start_angles end_angles : List α) (duration dt : α)
    (start_velocities end_velocities start_accelerations end_accelerations : List α) :
    TrajData α :=
  let n_joints := start_angles.length
  let coeff : ℕ → Fin 6 → α := fun j =>
    quinticCoeffs (start_angles.getD j 0) (start_velocities.getD j 0)
      (start_accelerations.getD j 0) (end_angles.getD j 0)
      (end_velocities.getD j 0) (end_accelerations.getD j 0) duration
  { time := timeArray duration dt
    positions := (timeArray duration dt).map
      (fun t => (List.range n_joints).map (fun j => posAt (coeff j) t))
    velocities := (timeArray duration dt).map
      (fun t => (List.range n_joints).map (fun j => velAt (coeff j) t))
    accelerations := (timeArray duration dt).map
      (fun t => (List.range n_joints).map (fun j => accAt (coeff j) t))
    jerks := (timeArray duration dt).map
      (fun t => (List.range n_joints).map (fun j => jerkAt (coeff j) t))
    coefficients := (List.range n_joints).map coeff
    duration := duration
    n_joints := n_joints }

/-- plan_quintic_trajectory with the default boundary lists
[0.0] * n_joints of the source (lines 69-76). -/
def planQuinticDefault (start_angles end_angles : List α) (duration dt : α) :
    TrajData α :=
  plan_quintic_trajectory start_angles end_angles duration dt
    (List.replicate start_angles.length 0) (List.replicate start_angles.length 0)
    (List.replicate start_angles.length 0) (List.replicate start_angles.length 0)

theorem getD_replicate_zero (n j : ℕ) : (List.replicate n (0 : α)).getD j 0 = 0 := by
  rcases lt_or_ge j n with h | h
  · simp [List.getD, List.getElem?_replicate, h]
  · simp [List.getD, List.getElem?_replicate, show ¬ j < n from not_lt.mpr h]

theorem coefficients_getD (start_angles end_angles sv ev sa ea : List α)
    (duration dt : α) (j : ℕ) (hj : j < start_angles.length) :
    (plan_quintic_trajectory start_angles end_angles duration dt sv ev sa ea).coefficients.getD
        j (fun _ => 0) =
      quinticCoeffs (start_angles.getD j 0) (sv.getD j 0) (sa.getD j 0)
        (end_angles.getD j 0) (ev.getD j 0) (ea.getD j 0) duration := by
  simp [plan_quintic_trajectory, List.getD, List.getElem?_map, List.getElem?_range hj]

/-- Claim C1: with default zero boundary velocities and accelerations, the
per-joint quintic returned by plan_quintic_trajectory meets the boundary
conditions: position is the start angle at t = 0 and the end angle at t = T,
and velocity and acceleration vanish at both ends.  The matrix returned is
6 coefficients per joint; dt > 0 only shapes the sampling grid and is
irrelevant to the polynomial. -/
theorem planQuintic_boundary_conditions (start_angles end_angles : List α)
    (T dt : α) (hT : 0 < T) (hdt : 0 < dt)
    (hlen : start_angles.length = end_angles.length)
    (j : ℕ) (hj : j < start_angles.length) :
    posAt ((planQuinticDefault start_angles end_angles T dt).coefficients.getD j
        (fun _ => 0)) 0 = start_angles.getD j 0 ∧
    posAt ((planQuinticDefault start_angles end_angles T dt).coefficients.getD j
        (fun _ => 0)) T = end_angles.getD j 0 ∧
    velAt ((planQuinticDefault start_angles end_angles T dt).coefficients.getD j
        (fun _ => 0)) 0 = 0 ∧
    velAt ((planQuinticDefault start_angles end_angles T dt).coefficients.getD j
        (fun _ => 0)) T = 0 ∧
    accAt ((planQuinticDefault start_angles end_angles T dt).coefficients.getD j
        (fun _ => 0)) 0 = 0 ∧
    accAt ((planQuinticDefault start_angles end_angles T dt).coefficients.getD j
        (fun _ => 0)) T = 0 := by
  have hTne : T ≠ 0 := ne_of_gt hT
  rw [planQuinticDefault, coefficients_getD _ _ _ _ _ _ _ _ _ hj,
    getD_replicate_zero]
  obtain ⟨h0, h1, h2, h3, h4, h5⟩ :=
    quinticSystem_coeffs (start_angles.getD j 0) 0 0 (end_angles.getD j 0) 0 0 T hTne
  refine ⟨?_, ?_, ?_, ?_, ?_, ?_⟩
  · rw [posAt]; linear_combination h0
  · rw [posAt]; linear_combination h3
  · rw [velAt]; linear_combination h1
  · rw [velAt]; linear_combination h4
  · rw [accAt]; linear_combination h2
  · rw [accAt]; linear_combination h5

/-- Witness for C1 at a concrete one-joint input. -/
theorem planQuintic_boundary_conditions_witness :
    posAt ((planQuinticDefault [(0 : ℚ)] [1] 1 1).coefficients.getD 0
        (fun _ => 0)) 0 = ([(0 : ℚ)]).getD 0 0 ∧
    posAt ((planQuinticDefault [(0 : ℚ)] [1] 1 1).coefficients.getD 0
        (fun _ => 0)) 1 = ([(1 : ℚ)]).getD 0 0 ∧
    velAt ((planQuinticDefault [(0 : ℚ)] [1] 1 1).coefficients.getD 0
        (fun _ => 0)) 0 = 0 ∧
    velAt ((planQuinticDefault [(0 : ℚ)] [1] 1 1).coefficients.getD 0
        (fun _ => 0)) 1 = 0 ∧
    accAt ((planQuinticDefault [(0 : ℚ)] [1] 1 1).coefficients.getD 0
        (fun _ => 0)) 0 = 0 ∧
    accAt ((planQuinticDefault [(0 : ℚ)] [1] 1 1).coefficients.getD 0
        (fun _ => 0)) 1 = 0 :=
  planQuintic_boundary_conditions [(0 : ℚ)] [1] 1 1 one_pos one_pos rfl 0
    (by norm_num)

/-- Positions block contributed by the segments after the first in
plan_multi_point_trajectory: each later segment drops its duplicate leading
sample (source lines 205-216). -/
def multiTailPositions (dt : α) : List (List α) → List α → List (List α)
  | w0 :: w1 :: ws, d :: ds =>
      ((planQuinticDefault w0 w1 d dt).positions).tail ++
        multiTailPositions dt (w1 :: ws) ds
  | _, _ => []

/-- Joint-position rows of the dict returned by plan_multi_point_trajectory
(source lines 153-236): the first segment's samples followed by every later
segment's samples with the duplicate leading sample removed.  The remaining
dict fields (time, velocities, accelerations, jerks) are assembled by the
same concatenation and are not needed for the claims. -/
def plan_multi_point_positions (waypoints : List (List α)) (durations : List α)
    (dt : α) : List (List α) :=
  match waypoints, durations with
  | w0 :: w1 :: ws, d :: ds =>
      (planQuinticDefault w0 w1 d dt).positions ++
        multiTailPositions dt (w1 :: ws) ds
  | _, _ => []

/-- Sample rows of the k-th segment of a multi-point plan, before the
leading-sample drop. -/
def segmentPositions (waypoints : List (List α)) (durations : List α) (dt : α)
    (k : ℕ) : List (List α) :=
  (planQuinticDefault (waypoints.getD k []) (waypoints.getD (k + 1) [])
    (durations.getD k 0) dt).positions

theorem map_getD_range (l : List α) :
    (List.range l.length).map (fun j => l.getD j 0) = l := by
  apply List.ext_getElem
  · simp
  · intro i h1 h2
    simp only [List.getElem_map, List.getElem_range]
    exact List.getD_eq_getElem l 0 h2

theorem posAt_coeffs_start (s e T : α) :
    posAt (quinticCoeffs s 0 0 e 0 0 T) 0 = s := by
  have h0 : quinticCoeffs s 0 0 e 0 0 T 0 = s := rfl
  rw [posAt]; linear_combination h0

theorem posAt_coeffs_end (s e T : α) (hT : T ≠ 0) :
    posAt (quinticCoeffs s 0 0 e 0 0 T) T = e := by
  obtain ⟨h0, h1, h2, h3, h4, h5⟩ := quinticSystem_coeffs s 0 0 e 0 0 T hT
  rw [posAt]; linear_combination h3

theorem timeArray_natMul (m : ℕ) (dt : α) (hdt : dt ≠ 0) :
    timeArray ((m : α) * dt) dt = (List.range (m + 1)).map (fun (k : ℕ) => (k : α) * dt) := by
  have hq : ((m : α) * dt + dt) / dt = ((m + 1 : ℕ) : α) := by
    push_cast
    field_simp
    ring
  rw [timeArray, hq, Int.ceil_natCast]
  simp

theorem planQuinticDefault_positions (s e : List α) (T dt : α) :
    (planQuinticDefault s e T dt).positions =
      (timeArray T dt).map (fun t => (List.range s.length).map
        (fun j => posAt (quinticCoeffs (s.getD j 0) 0 0 (e.getD j 0) 0 0 T) t)) := by
  simp only [planQuinticDefault, plan_quintic_trajectory, getD_replicate_zero]

/-- A segment whose duration is a positive multiple of dt starts its sample
rows at the start waypoint and ends them at the end waypoint. -/
theorem segment_head_last (s e : List α) (dt : α) (hdt : 0 < dt) (m : ℕ)
    (hm : 0 < m) (hlen : s.length = e.length) :
    ((planQuinticDefault s e ((m : α) * dt) dt).positions).head? = some s ∧
    ((planQuinticDefault s e ((m : α) * dt) dt).positions).getLast? = some e := by
  have hdt0 : dt ≠ 0 := ne_of_gt hdt
  have hT : (m : α) * dt ≠ 0 := by positivity
  have hrow0 : (List.range s.length).map
      (fun j => posAt (quinticCoeffs (s.getD j 0) 0 0 (e.getD j 0) 0 0 ((m : α) * dt)) 0) =
      s := by
    rw [List.map_congr_left (fun j _ => posAt_coeffs_start (s.getD j 0) (e.getD j 0) _)]
    exact map_getD_range s
  have hrowT : (List.range s.length).map
      (fun j => posAt (quinticCoeffs (s.getD j 0) 0 0 (e.getD j 0) 0 0 ((m : α) * dt))
        ((m : α) * dt)) = e := by
    rw [List.map_congr_left (fun j _ => posAt_coeffs_end (s.getD j 0) (e.getD j 0) _ hT),
      hlen]
    exact map_getD_range e
  rw [planQuinticDefault_positions, timeArray_natMul _ _ hdt0, List.map_map]
  constructor
  · rw [List.range_succ_eq_map, List.map_cons, List.head?_cons]
    simp only [Function.comp_apply, Nat.cast_zero, zero_mul]
    exact congrArg some hrow0
  · rw [List.range_succ, List.map_append]
    simp only [List.map_cons, List.map_nil, Function.comp_apply]
    rw [List.getLast?_concat]
    exact congrArg some hrowT

/-- Entry lemmas for quinticCoeffs at each coefficient index. -/
theorem quinticCoeffs_zero (th0 om0 al0 thf omf alf T : α) :
    quinticCoeffs th0 om0 al0 thf omf alf T 0 = th0 := rfl

theorem quinticCoeffs_one (th0 om0 al0 thf omf alf T : α) :
    quinticCoeffs th0 om0 al0 thf omf alf T 1 = om0 := rfl

theorem quinticCoeffs_two (th0 om0 al0 thf omf alf T : α) :
    quinticCoeffs th0 om0 al0 thf omf alf T 2 = al0 / 2 := rfl

theorem quinticCoeffs_three (th0 om0 al0 thf omf alf T : α) :
    quinticCoeffs th0 om0 al0 thf omf alf T 3 =
      (20 * (thf - th0) - (8 * omf + 12 * om0) * T - (3 * al0 - alf) * T^2) /
        (2 * T^3) := rfl

theorem quinticCoeffs_four (th0 om0 al0 thf omf alf T : α) :
    quinticCoeffs th0 om0 al0 thf omf alf T 4 =
      (-30 * (thf - th0) + (14 * omf + 16 * om0) * T + (3 * al0 - 2 * alf) * T^2) /
        (2 * T^4) := rfl

theorem quinticCoeffs_five (th0 om0 al0 thf omf alf T : α) :
    quinticCoeffs th0 om0 al0 thf omf alf T 5 =
      (12 * (thf - th0) - 6 * (omf + om0) * T + (alf - al0) * T^2) /
        (2 * T^5) := rfl

/-- The tail blocks of a multi-point plan are exactly its successive
segments with their leading sample dropped. -/
theorem multiTailPositions_eq (dt : α) :
    ∀ (ws : List (List α)) (ds : List α), ds.length + 1 = ws.length →
      multiTailPositions dt ws ds =
        ((List.range ds.length).map
          (fun i => (segmentPositions ws ds dt i).tail)).flatten := by
  intro ws ds
  induction ds generalizing ws with
  | nil =>
      intro hlen
      match ws, hlen with
      | [w], _ => simp [multiTailPositions]
  | cons d ds ih =>
      intro hlen
      match ws, hlen with
      | w0 :: w1 :: ws', hlen =>
        have hlen' : ds.length + 1 = (w1 :: ws').length := by
          simpa using hlen
        rw [multiTailPositions, ih (w1 :: ws') hlen']
        simp only [List.length_cons]
        rw [List.range_succ_eq_map, List.map_cons, List.flatten_cons, List.map_map]
        rw [show (List.range ds.length).map
            (fun i => (segmentPositions (w1 :: ws') ds dt i).tail) =
            (List.range ds.length).map
              ((fun i => (segmentPositions (w0 :: w1 :: ws') (d :: ds) dt i).tail) ∘
                Nat.succ) from List.map_congr_left (fun i _ => rfl)]
        rfl

/-- The positions of a multi-point plan decompose as the first segment
followed by the tails of the later segments (the leading-sample drop of
source lines 205-216). -/
theorem plan_multi_point_positions_decomp (waypoints : List (List α))
    (durations : List α) (dt : α) (h2 : 2 ≤ waypoints.length)
    (hD : durations.length + 1 = waypoints.length) :
    plan_multi_point_positions waypoints durations dt =
      segmentPositions waypoints durations dt 0 ++
        ((List.range (durations.length - 1)).map
          (fun i => (segmentPositions waypoints durations dt (i + 1)).tail)).flatten := by
  match waypoints, durations, hD with
  | w0 :: w1 :: ws, d :: ds, hD =>
    have hlen' : ds.length + 1 = (w1 :: ws).length := by simpa using hD
    rw [plan_multi_point_positions, multiTailPositions_eq dt (w1 :: ws) ds hlen']
    simp only [List.length_cons, Nat.add_sub_cancel]
    rw [show (List.range ds.length).map
        (fun i => (segmentPositions (w1 :: ws) ds dt i).tail) =
        (List.range ds.length).map
          (fun i => (segmentPositions (w0 :: w1 :: ws) (d :: ds) dt (i + 1)).tail) from
      List.map_congr_left (fun i _ => rfl)]
    rfl

/-- Claim C7 (amended): when every segment duration is a positive integer
multiple of dt, each segment samples its start waypoint first and its end
waypoint last, and the multi-point plan is the first segment followed by the
later segments with the duplicate leading sample dropped; hence the
concatenated positions match exactly at every segment boundary. -/
theorem multi_point_boundary_matching (waypoints : List (List α))
    (durations : List α) (dt : α) (N : ℕ)
    (hW : ∀ w ∈ waypoints, w.length = N)
    (hD : durations.length + 1 = waypoints.length)
    (h2 : 2 ≤ waypoints.length) (hdt : 0 < dt)
    (hdiv : ∀ d ∈ durations, ∃ m : ℕ, 0 < m ∧ d = (m : α) * dt)
    (k : ℕ) (hk : k + 1 < waypoints.length) :
    (segmentPositions waypoints durations dt k).head? =
        some (waypoints.getD k []) ∧
    (segmentPositions waypoints durations dt k).getLast? =
        some (waypoints.getD (k + 1) []) ∧
    plan_multi_point_positions waypoints durations dt =
      segmentPositions waypoints durations dt 0 ++
        ((List.range (durations.length - 1)).map
          (fun i => (segmentPositions waypoints durations dt (i + 1)).tail)).flatten := by
  have hkd : k < durations.length := by omega
  have hmemd : durations.getD k 0 ∈ durations := by
    rw [List.getD_eq_getElem durations 0 hkd]
    exact List.getElem_mem hkd
  obtain ⟨m, hm, hT⟩ := hdiv _ hmemd
  have hks : k < waypoints.length := by omega
  have hmems : waypoints.getD k [] ∈ waypoints := by
    rw [List.getD_eq_getElem waypoints [] hks]
    exact List.getElem_mem hks
  have hmeme : waypoints.getD (k + 1) [] ∈ waypoints := by
    rw [List.getD_eq_getElem waypoints [] hk]
    exact List.getElem_mem hk
  have hlen : (waypoints.getD k []).length = (waypoints.getD (k + 1) []).length := by
    rw [hW _ hmems, hW _ hmeme]
  have hseg := segment_head_last (waypoints.getD k []) (waypoints.getD (k + 1) [])
    dt hdt m hm hlen
  rw [segmentPositions, hT]
  exact ⟨hseg.1, hseg.2,
    plan_multi_point_positions_decomp waypoints durations dt h2 hD⟩

/-- Witness for the amended claim C7 at a concrete divisible input. -/
theorem multi_point_boundary_matching_witness :
    (segmentPositions ([[(0 : ℚ)], [1], [2]]) [1, 1] 1 0).head? =
        some (([[(0 : ℚ)], [1], [2]]).getD 0 []) ∧
    (segmentPositions ([[(0 : ℚ)], [1], [2]]) [1, 1] 1 0).getLast? =
        some (([[(0 : ℚ)], [1], [2]]).getD 1 []) ∧
    plan_multi_point_positions ([[(0 : ℚ)], [1], [2]]) [1, 1] 1 =
      segmentPositions ([[(0 : ℚ)], [1], [2]]) [1, 1] 1 0 ++
        ((List.range (([1, 1] : List ℚ).length - 1)).map
          (fun i => (segmentPositions ([[(0 : ℚ)], [1], [2]]) [1, 1] 1 (i + 1)).tail)).flatten :=
  multi_point_boundary_matching [[(0 : ℚ)], [1], [2]] [1, 1] 1 1
    (by intro w hw; fin_cases hw <;> rfl)
    rfl (by norm_num) one_pos
    (by
      intro d hd
      refine ⟨1, Nat.one_pos, ?_⟩
      fin_cases hd <;> norm_num)
    0 (by norm_num)

theorem timeArray_one_twothirds :
    timeArray (1 : ℚ) (2/3) = [0, 2/3, 4/3] := by
  have hq : ((1 : ℚ) + 2/3) / (2/3) = 5/2 := by norm_num
  have hceil : (⌈((1 : ℚ) + 2/3) / (2/3)⌉).toNat = 3 := by
    rw [hq, show (⌈(5/2 : ℚ)⌉ : ℤ) = 3 from by
      rw [Int.ceil_eq_iff]
      norm_num]
    rfl
  rw [timeArray, hceil]
  norm_num [List.range_succ]

theorem planQuinticDefault_pos_ce :
    (planQuinticDefault [(0 : ℚ)] [1] 1 (2/3)).positions =
      [[0], [64/81], [128/81]] := by
  rw [planQuinticDefault_positions, timeArray_one_twothirds]
  norm_num [List.range_succ, posAt, quinticCoeffs_zero, quinticCoeffs_one,
    quinticCoeffs_two, quinticCoeffs_three, quinticCoeffs_four, quinticCoeffs_five]

/-- Counterexample to claim C7 as stated: with waypoints [[0],[1],[2]],
segment durations [1,1] and dt = 2/3, the last sample of the first segment
is taken at t = 4/3, past the waypoint time, so its joint position 128/81
does not meet the interior waypoint [1]; the concatenated positions do not
match at the segment boundary. -/
theorem multi_point_boundary_counterexample :
    (segmentPositions ([[(0 : ℚ)], [1], [2]]) [1, 1] (2/3) 0).getLast? ≠
        some [1] ∧
    (plan_multi_point_positions ([[(0 : ℚ)], [1], [2]]) [1, 1] (2/3)).getD 2 [] ≠
        ([[(0 : ℚ)], [1], [2]]).getD 1 [] := by
  have hseg : segmentPositions ([[(0 : ℚ)], [1], [2]]) [1, 1] (2/3) 0 =
      [[0], [64/81], [128/81]] := by
    rw [segmentPositions]
    simp only [List.getD_cons_zero, List.getD_cons_succ]
    exact planQuinticDefault_pos_ce
  constructor
  · rw [hseg]
    simp only [List.getLast?]
    norm_num
  · rw [plan_multi_point_positions, planQuinticDefault_pos_ce]
    simp only [List.cons_append, List.getD_cons_zero, List.getD_cons_succ]
    norm_num

/-- Per-joint entry of the smoothness analysis dict
(trajectory_planner.py lines 490-497). -/
structure JointAnalysis (α : Type) where
  joint : ℕ
  rms_jerk : α
  max_velocity : α
  max_acceleration : α
  max_jerk : α
  smoothness_score : α

/-- Result of analyze_trajectory_smoothness (lines 470-505). -/
structure SmoothnessAnalysis (α : Type) where
  joint_analysis : List (JointAnalysis α)
  overall_smoothness : α

/-- Column j of a time-major numpy array. -/
def column (rows : List (List α)) (j : ℕ) : List α :=
  rows.map (fun row => row.getD j 0)

/-- np.max of absolute values, totalised with 0 on the empty list. -/
def maxAbs (l : List α) : α :=
  (l.map (fun x => |x|)).foldl max 0

/-- Loop body of analyze_trajectory_smoothness for one joint: RMS jerk is
sqrt of the mean squared jerk and the score is 1 / (1 + rms_jerk). -/
def jointAnalysisOf (sqrtF : α → α) (traj : TrajData α) (j : ℕ) :
    JointAnalysis α :=
  let joint_jerks := column traj.jerks j
  let rms_jerk := sqrtF ((joint_jerks.map (fun x => x^2)).sum / joint_jerks.length)
  { joint := j + 1
    rms_jerk := rms_jerk
    max_velocity := maxAbs (column traj.velocities j)
    max_acceleration := maxAbs (column traj.accelerations j)
    max_jerk := maxAbs joint_jerks
    smoothness_score := 1 / (1 + rms_jerk) }

/-- analyze_trajectory_smoothness: the loop accumulates the per-joint
analyses and the running total of RMS jerks, and the overall score is
1 / (1 + total_jerk_rms / n_joints) (source line 503). -/
def analyze_trajectory_smoothness (sqrtF : α → α) (traj : TrajData α) :
    SmoothnessAnalysis α :=
  let res := (List.range traj.n_joints).foldl
    (fun acc j =>
      let ja := jointAnalysisOf sqrtF traj j
      (acc.1 ++ [ja], acc.2 + ja.rms_jerk))
    (([] : List (JointAnalysis α)), (0 : α))
  { joint_analysis := res.1
    overall_smoothness := 1 / (1 + res.2 / traj.n_joints) }

theorem analyze_foldl_spec (sqrtF : α → α) (traj : TrajData α) :
    ∀ (l : List ℕ) (acc : List (JointAnalysis α) × α),
      (l.foldl (fun acc j =>
          let ja := jointAnalysisOf sqrtF traj j
          (acc.1 ++ [ja], acc.2 + ja.rms_jerk)) acc).1 =
        acc.1 ++ l.map (jointAnalysisOf sqrtF traj) ∧
      (l.foldl (fun acc j =>
          let ja := jointAnalysisOf sqrtF traj j
          (acc.1 ++ [ja], acc.2 + ja.rms_jerk)) acc).2 =
        acc.2 + (l.map (fun j => (jointAnalysisOf sqrtF traj j).rms_jerk)).sum := by
  intro l
  induction l with
  | nil => intro acc; simp
  | cons j l ih =>
      intro acc
      obtain ⟨ih1, ih2⟩ := ih (acc.1 ++ [jointAnalysisOf sqrtF traj j],
        acc.2 + (jointAnalysisOf sqrtF traj j).rms_jerk)
      refine ⟨?_, ?_⟩
      · rw [List.foldl_cons, ih1]
        simp
      · rw [List.foldl_cons, ih2]
        simp [add_assoc]

/-- Claim C4 (amended): analyze_trajectory_smoothness computes for each
joint the RMS jerk and the score 1 / (1 + rms_jerk), but its overall value
is 1 / (1 + mean RMS jerk), not the arithmetic mean of the per-joint
scores. -/
theorem analyze_smoothness_formula (sqrtF : α → α) (traj : TrajData α) :
    (analyze_trajectory_smoothness sqrtF traj).joint_analysis =
        (List.range traj.n_joints).map (jointAnalysisOf sqrtF traj) ∧
    (analyze_trajectory_smoothness sqrtF traj).joint_analysis.map
        (fun ja => ja.smoothness_score) =
      (analyze_trajectory_smoothness sqrtF traj).joint_analysis.map
        (fun ja => 1 / (1 + ja.rms_jerk)) ∧
    (analyze_trajectory_smoothness sqrtF traj).overall_smoothness =
      1 / (1 + ((analyze_trajectory_smoothness sqrtF traj).joint_analysis.map
        (fun ja => ja.rms_jerk)).sum / traj.n_joints) := by
  obtain ⟨h1, h2⟩ := analyze_foldl_spec sqrtF traj (List.range traj.n_joints)
    (([] : List (JointAnalysis α)), (0 : α))
  refine ⟨?_, ?_, ?_⟩
  · rw [analyze_trajectory_smoothness]
    simpa using h1
  · show ((analyze_trajectory_smoothness sqrtF traj).joint_analysis).map _ = _
    have hJ : (analyze_trajectory_smoothness sqrtF traj).joint_analysis =
        (List.range traj.n_joints).map (jointAnalysisOf sqrtF traj) := by
      rw [analyze_trajectory_smoothness]
      simpa using h1
    rw [hJ, List.map_map, List.map_map]
    exact List.map_congr_left (fun j _ => rfl)
  · rw [analyze_trajectory_smoothness]
    simp only []
    rw [h1, h2]
    simp only [List.map_map, List.nil_append]
    rw [show (List.range traj.n_joints).map
        ((fun ja => ja.rms_jerk) ∘ jointAnalysisOf sqrtF traj) =
        (List.range traj.n_joints).map
          (fun j => (jointAnalysisOf sqrtF traj j).rms_jerk) from
      List.map_congr_left (fun j _ => rfl)]
    simp

/-- Concrete two-joint trajectory data refuting claim C4 as stated: joint 1
has zero jerk everywhere, joint 2 has constant jerk 3. -/
def ceTraj : TrajData ℝ :=
  { time := [0, 1]
    positions := [[0, 0], [0, 0]]
    velocities := [[0, 0], [0, 0]]
    accelerations := [[0, 0], [0, 0]]
    jerks := [[0, 3], [0, 3]]
    coefficients := []
    duration := 1
    n_joints := 2 }

/-- Counterexample to claim C4 as stated: on ceTraj the per-joint RMS jerks
are 0 and 3, the code computes overall = 1 / (1 + 3/2) = 2/5, while the mean
per-joint score is (1 + 1/4) / 2 = 5/8. -/
theorem analyze_smoothness_counterexample :
    (analyze_trajectory_smoothness Real.sqrt ceTraj).overall_smoothness ≠
      ((analyze_trajectory_smoothness Real.sqrt ceTraj).joint_analysis.map
        (fun ja => ja.smoothness_score)).sum /
        ((analyze_trajectory_smoothness Real.sqrt ceTraj).joint_analysis.length : ℝ) := by
  have h9 : Real.sqrt 9 = 3 := by
    rw [show (9 : ℝ) = 3^2 by norm_num]
    exact Real.sqrt_sq (by norm_num)
  have hr : List.range 2 = [0, 1] := rfl
  simp only [analyze_trajectory_smoothness, hr, List.foldl_cons, List.foldl_nil,
    jointAnalysisOf, ceTraj, column, List.map_cons, List.map_nil, List.getD_cons_zero,
    List.getD_cons_succ, List.sum_cons, List.sum_nil, List.length_cons,
    List.length_nil, List.nil_append, List.cons_append, List.length_map]
  norm_num [h9, Real.sqrt_zero]

end Trajectory

/-! ## Robot kinematics (robot_kinematics.py) -/

section Kinematics

variable {α : Type} [LinearOrderedField α]

/-- One row of a DH parameter table [a, alpha, d, theta_offset]; as in the
source, alpha and theta_offset are stored in degrees, a and d in
centimetres. -/
structure DHParam (α : Type) where
  a : α
  alpha : α
  d : α
  theta_offset : α

/-- dh_transform_matrix (robot_kinematics.py lines 33-60): the homogeneous
DH transform, with a and d converted from centimetres to metres.  cosF and
sinF stand for np.cos and np.sin. -/
def dh_transform_matrix (cosF sinF : α → α) (a alpha d theta : α) :
    Matrix (Fin 4) (Fin 4) α :=
  !![cosF theta, -(sinF theta) * cosF alpha, sinF theta * sinF alpha, (a / 100) * cosF theta;
     sinF theta, cosF theta * cosF alpha, -(cosF theta) * sinF alpha, (a / 100) * sinF theta;
     0, sinF alpha, cosF alpha, d / 100;
     0, 0, 0, 1]

/-- The per-link transform of forward_kinematics (lines 76-87): degree
fields are converted with np.radians (radsF) and the joint angle is added
to the converted offset. -/
def linkTransform (cosF sinF radsF : α → α) (p : DHParam α) (joint_angle : α) :
    Matrix (Fin 4) (Fin 4) α :=
  dh_transform_matrix cosF sinF p.a (radsF p.alpha) p.d
    (joint_angle + radsF p.theta_offset)

/-- forward_kinematics (lines 62-92): left fold of the per-link transforms
starting from the identity.  The source iterates over
zip(dh_params, joint_angles), so a length mismatch silently truncates to
the shorter list; no validation of any kind is performed. -/
def forward_kinematics (cosF sinF radsF : α → α) (dh_params : List (DHParam α))
    (joint_angles : List α) : Matrix (Fin 4) (Fin 4) α :=
  (List.zipWith (linkTransform cosF sinF radsF) dh_params joint_angles).foldl (· * ·) 1

/-- Counterexample to claim C2 as stated: forward_kinematics does not fail
on a DH list of length 1 paired with a joint list of length 2; it returns
the same ordinary pose as the well-formed call that drops the extra angle.
No InputError exists anywhere in the code. -/
theorem forward_kinematics_mismatch_returns_pose :
    forward_kinematics Real.cos Real.sin (fun x => x * (Real.pi / 180))
        [⟨10, 0, 0, 0⟩] [0, 5] =
      forward_kinematics Real.cos Real.sin (fun x => x * (Real.pi / 180))
        [⟨10, 0, 0, 0⟩] [0] := rfl

/-- Claim C2 (amended): forward_kinematics performs no shape or finiteness
validation; it zips the DH list with the joint list, so it always returns
the ordinary pose computed from the first min(m, n) links, silently ignoring
the excess entries of the longer list. -/
theorem forward_kinematics_truncates (cosF sinF radsF : α → α)
    (dh_params : List (DHParam α)) (joint_angles : List α) :
    forward_kinematics cosF sinF radsF dh_params joint_angles =
      forward_kinematics cosF sinF radsF
        (dh_params.take (min dh_params.length joint_angles.length))
        (joint_angles.take (min dh_params.length joint_angles.length)) := by
  rw [forward_kinematics, forward_kinematics, ← List.take_zipWith,
    List.take_of_length_le (le_of_eq (List.length_zipWith ..))]

/-- Cumulative transform after k links, the value of T_cumulative in the
loop of compute_jacobian (lines 111-128). -/
def cumulativeTransform (cosF sinF radsF : α → α) (dh_params : List (DHParam α))
    (joint_angles : List α) (k : ℕ) : Matrix (Fin 4) (Fin 4) α :=
  ((List.zipWith (linkTransform cosF sinF radsF) dh_params joint_angles).take k).foldl
    (· * ·) 1

/-- Origin column of a homogeneous transform, T[:3, 3]. -/
def originOf (T : Matrix (Fin 4) (Fin 4) α) : Fin 3 → α :=
  fun i => T i.castSucc 3

/-- z-axis column of a homogeneous transform, T[:3, 2]. -/
def zAxisOf (T : Matrix (Fin 4) (Fin 4) α) : Fin 3 → α :=
  fun i => T i.castSucc 2

/-- np.cross on 3-vectors. -/
def cross3 (u v : Fin 3 → α) : Fin 3 → α :=
  ![u 1 * v 2 - u 2 * v 1, u 2 * v 0 - u 0 * v 2, u 0 * v 1 - u 1 * v 0]

/-- compute_jacobian (lines 94-146): the 6 x N matrix whose column i has
linear part z_i x (p_end - p_i) and angular part z_i, where z_i and p_i
come from the cumulative transform of the first i links (the identity for
i = 0, giving z_0 = (0,0,1) and p_0 = the origin) and p_end from the full
chain. -/
def compute_jacobian (cosF sinF radsF : α → α) (dh_params : List (DHParam α))
    (joint_angles : List α) : Matrix (Fin 6) (Fin joint_angles.length) α :=
  Matrix.of fun r i =>
    let z_i := zAxisOf (cumulativeTransform cosF sinF radsF dh_params joint_angles i)
    let p_i := originOf (cumulativeTransform cosF sinF radsF dh_params joint_angles i)
    let p_end := originOf
      (cumulativeTransform cosF sinF radsF dh_params joint_angles joint_angles.length)
    if h : (r : ℕ) < 3 then cross3 z_i (p_end - p_i) ⟨r, h⟩
    else z_i ⟨(r : ℕ) - 3, by omega⟩

theorem cumulativeTransform_eq_fk (cosF sinF radsF : α → α)
    (dh_params : List (DHParam α)) (joint_angles : List α) (k : ℕ) :
    cumulativeTransform cosF sinF radsF dh_params joint_angles k =
      forward_kinematics cosF sinF radsF (dh_params.take k) (joint_angles.take k) := by
  rw [cumulativeTransform, forward_kinematics, List.take_zipWith]

theorem cumulativeTransform_full (cosF sinF radsF : α → α)
    (dh_params : List (DHParam α)) (joint_angles : List α) :
    cumulativeTransform cosF sinF radsF dh_params joint_angles joint_angles.length =
      forward_kinematics cosF sinF radsF dh_params joint_angles := by
  rw [cumulativeTransform, forward_kinematics,
    List.take_of_length_le (by rw [List.length_zipWith]; omega)]

/-- Claim C3: the matrix returned by compute_jacobian is 6 x N (its type),
and for each joint i its linear part is z_i x (p_end - p_i) and its angular
part is z_i, where z_i and p_i are the z-axis and origin of the cumulative
product of the first i DH transforms, exactly the product forward_kinematics
computes on the truncated chain, and p_end is the full forward-kinematics
origin. -/
theorem compute_jacobian_columns (cosF sinF radsF : α → α)
    (dh_params : List (DHParam α)) (joint_angles : List α)
    (hlen : dh_params.length = joint_angles.length)
    (i : Fin joint_angles.length) (r : Fin 3) :
    compute_jacobian cosF sinF radsF dh_params joint_angles
        (Fin.castLE (by norm_num) r) i =
      cross3
        (zAxisOf (forward_kinematics cosF sinF radsF
          (dh_params.take i) (joint_angles.take i)))
        (originOf (forward_kinematics cosF sinF radsF dh_params joint_angles) -
          originOf (forward_kinematics cosF sinF radsF
            (dh_params.take i) (joint_angles.take i))) r ∧
    compute_jacobian cosF sinF radsF dh_params joint_angles (r.addNat 3) i =
      zAxisOf (forward_kinematics cosF sinF radsF
        (dh_params.take i) (joint_angles.take i)) r := by
  constructor
  · show (fun r i => _) (Fin.castLE _ r) i = _
    simp only [compute_jacobian, Matrix.of_apply]
    rw [dif_pos (show ((Fin.castLE (by norm_num : 3 ≤ 6) r : Fin 6) : ℕ) < 3 from r.isLt)]
    rw [cumulativeTransform_eq_fk, cumulativeTransform_full]
    congr 1
  · show (fun r i => _) (r.addNat 3) i = _
    simp only [compute_jacobian, Matrix.of_apply]
    rw [dif_neg (show ¬ ((r.addNat 3 : Fin 6) : ℕ) < 3 by simp [Fin.addNat])]
    rw [cumulativeTransform_eq_fk]
    congr 1

/-- Witness for claim C3 on a concrete one-link chain over the rationals
with placeholder trigonometric functions. -/
theorem compute_jacobian_columns_witness :
    compute_jacobian (fun _ => (1 : ℚ)) (fun _ => 0) id [⟨100, 0, 0, 0⟩] [0]
        (Fin.castLE (by norm_num) (0 : Fin 3)) ⟨0, by norm_num⟩ =
      cross3
        (zAxisOf (forward_kinematics (fun _ => (1 : ℚ)) (fun _ => 0) id [] []))
        (originOf (forward_kinematics (fun _ => (1 : ℚ)) (fun _ => 0) id
            [⟨100, 0, 0, 0⟩] [0]) -
          originOf (forward_kinematics (fun _ => (1 : ℚ)) (fun _ => 0) id [] [])) 0 ∧
    compute_jacobian (fun _ => (1 : ℚ)) (fun _ => 0) id [⟨100, 0, 0, 0⟩] [0]
        ((0 : Fin 3).addNat 3) ⟨0, by norm_num⟩ =
      zAxisOf (forward_kinematics (fun _ => (1 : ℚ)) (fun _ => 0) id [] []) 0 :=
  compute_jacobian_columns (fun _ => (1 : ℚ)) (fun _ => 0) id
    [⟨100, 0, 0, 0⟩] [0] rfl ⟨0, by norm_num⟩ 0

/-! ## IK solution acceptance (main.py) -/

/-- get_joint_limits (robot_kinematics.py lines 20-27, 521-523): the
per-joint limit table in degrees, with the dict default (-180, 180). -/
def get_joint_limits (i : ℕ) : α × α :=
  match i with
  | 0 => (-180, 180)
  | 1 => (-135, 135)
  | 2 => (-90, 90)
  | 3 => (-180, 180)
  | 4 => (-120, 120)
  | 5 => (-180, 180)
  | _ => (-180, 180)

/-- validate_ik_solution (main.py lines 1188-1209): recompute the pose by
forward kinematics, reject when the euclidean position error exceeds the
tolerance, then reject when any joint angle in degrees leaves its limit
interval.  sqrtF stands for the square root inside np.linalg.norm and degsF
for np.degrees. -/
def validate_ik_solution (cosF sinF radsF degsF sqrtF : α → α)
    (dh_params : List (DHParam α)) (target_pos : Fin 3 → α) (tolerance : α)
    (solution : List α) : Bool :=
  let verify_pos := originOf (forward_kinematics cosF sinF radsF dh_params solution)
  let pos_error := sqrtF (∑ i : Fin 3, (target_pos i - verify_pos i)^2)
  if tolerance < pos_error then false
  else solution.enum.all fun p =>
    decide ((get_joint_limits p.1).1 ≤ degsF p.2) &&
      decide (degsF p.2 ≤ (get_joint_limits p.1).2)

/-- Duplicate test of find_multiple_ik_solutions (main.py lines 1145-1150):
an accepted solution is a duplicate when every corresponding joint of some
existing solution differs by less than 5 degrees. -/
def is_duplicate (degsF : α → α) (solution : List α)
    (existing : List (List α)) : Bool :=
  existing.any fun ex =>
    (List.zipWith (fun s1 s2 => |degsF (s1 - s2)|) solution ex).all fun x =>
      decide (x < 5)

/-- find_multiple_ik_solutions (main.py lines 1132-1162): fold over the
initial guesses; the numeric solver is abstract (solver, returning none for
failures and exceptions), each returned candidate is appended only when
validate_ik_solution accepts it and it is not a duplicate, and the loop
stops once three solutions are collected. -/
def find_multiple_ik_solutions (solver : List α → Option (List α))
    (validateF : List α → Bool) (degsF : α → α) :
    List (List α) → List (List α) → List (List α)
  | [], acc => acc
  | g :: gs, acc =>
      match solver g with
      | none => find_multiple_ik_solutions solver validateF degsF gs acc
      | some sol =>
          let next := if validateF sol && !(is_duplicate degsF sol acc)
            then acc ++ [sol] else acc
          if 3 ≤ next.length then next
          else find_multiple_ik_solutions solver validateF degsF gs next

theorem find_multiple_invariant (solver : List α → Option (List α))
    (validateF : List α → Bool) (degsF : α → α) :
    ∀ (guesses acc : List (List α)), (∀ s ∈ acc, validateF s = true) →
      ∀ s ∈ find_multiple_ik_solutions solver validateF degsF guesses acc,
        validateF s = true := by
  intro guesses
  induction guesses with
  | nil => intro acc hacc s hs; exact hacc s hs
  | cons g gs ih =>
      intro acc hacc s hs
      rw [find_multiple_ik_solutions] at hs
      cases hsolver : solver g with
      | none =>
          rw [hsolver] at hs
          exact ih acc hacc s hs
      | some sol =>
          rw [hsolver] at hs
          simp only at hs
          have hnext : ∀ t ∈ (if validateF sol && !(is_duplicate degsF sol acc)
              then acc ++ [sol] else acc), validateF t = true := by
            intro t ht
            by_cases hcond : (validateF sol && !(is_duplicate degsF sol acc)) = true
            · rw [if_pos hcond] at ht
              rcases List.mem_append.mp ht with h1 | h1
              · exact hacc t h1
              · have ht' : t = sol := by simpa using h1
                subst ht'
                exact ((Bool.and_eq_true _ _).mp hcond).1
            · rw [if_neg hcond] at ht
              exact hacc t ht
          by_cases hlen : 3 ≤ (if validateF sol && !(is_duplicate degsF sol acc)
              then acc ++ [sol] else acc).length
          · rw [if_pos hlen] at hs
            exact hnext s hs
          · rw [if_neg hlen] at hs
            exact ih _ hnext s hs

theorem validate_ik_solution_eq_true (cosF sinF radsF degsF sqrtF : α → α)
    (dh_params : List (DHParam α)) (target_pos : Fin 3 → α) (tolerance : α)
    (solution : List α) :
    validate_ik_solution cosF sinF radsF degsF sqrtF dh_params target_pos
        tolerance solution = true ↔
      (sqrtF (∑ i : Fin 3, (target_pos i -
          originOf (forward_kinematics cosF sinF radsF dh_params solution) i)^2) ≤
          tolerance ∧
        ∀ p ∈ solution.enum,
          (get_joint_limits p.1).1 ≤ degsF p.2 ∧
            degsF p.2 ≤ (get_joint_limits p.1).2) := by
  rw [validate_ik_solution]
  by_cases h : tolerance < sqrtF (∑ i : Fin 3, (target_pos i -
      originOf (forward_kinematics cosF sinF radsF dh_params solution) i)^2)
  · rw [if_pos h]
    simp only [Bool.false_eq_true, false_iff, not_and]
    intro h1
    exact absurd h (not_lt.mpr h1)
  · rw [if_neg h]
    simp only [List.all_eq_true, Bool.and_eq_true, decide_eq_true_eq]
    constructor
    · intro hall
      exact ⟨not_lt.mp h, hall⟩
    · intro hc
      exact hc.2

/-- Claim C5: every solution in the list returned by
find_multiple_ik_solutions (for any abstract numeric solver and any guess
list) satisfies both acceptance conditions of validate_ik_solution: the
forward-kinematics position error is within the tolerance, and every joint
angle lies inside its configured limit interval. -/
theorem ik_solutions_validated (cosF sinF radsF degsF sqrtF : α → α)
    (dh_params : List (DHParam α)) (target_pos : Fin 3 → α) (tolerance : α)
    (solver : List α → Option (List α)) (guesses : List (List α))
    (sol : List α)
    (hsol : sol ∈ find_multiple_ik_solutions solver
      (validate_ik_solution cosF sinF radsF degsF sqrtF dh_params target_pos
        tolerance) degsF guesses []) :
    sqrtF (∑ i : Fin 3, (target_pos i -
        originOf (forward_kinematics cosF sinF radsF dh_params sol) i)^2) ≤
        tolerance ∧
      ∀ p ∈ sol.enum,
        (get_joint_limits p.1).1 ≤ degsF p.2 ∧
          degsF p.2 ≤ (get_joint_limits p.1).2 :=
  (validate_ik_solution_eq_true cosF sinF radsF degsF sqrtF dh_params
      target_pos tolerance sol).mp
    (find_multiple_invariant solver _ degsF guesses [] (by simp) sol hsol)

/-- Witness for claim C5 on a concrete accepted solution. -/
theorem ik_solutions_validated_witness :
    (fun _ => (0 : ℚ)) (∑ i : Fin 3, ((![0, 0, 0] : Fin 3 → ℚ) i -
        originOf (forward_kinematics (fun _ => (1 : ℚ)) (fun _ => 0) id [] []) i)^2) ≤
        (1 : ℚ) ∧
      ∀ p ∈ ([] : List ℚ).enum,
        (get_joint_limits p.1).1 ≤ id p.2 ∧
          id p.2 ≤ (get_joint_limits p.1).2 :=
  ik_solutions_validated (fun _ => (1 : ℚ)) (fun _ => 0) id id (fun _ => 0)
    [] ![0, 0, 0] 1 (fun _ => some []) [[]] []
    (by
      rw [find_multiple_ik_solutions]
      simp only []
      rw [show validate_ik_solution (fun _ => (1 : ℚ)) (fun _ => 0) id id
          (fun _ => 0) [] ![0, 0, 0] 1 [] = true from by
        rw [validate_ik_solution]
        norm_num]
      simp [is_duplicate, find_multiple_ik_solutions])

/-! ## Trajectory path validation (main.py lines 1481-1533) -/

/-- Structured failure reason of validate_trajectory_path: the source
formats these as message strings carrying the step (and joint) index. -/
inductive FailReason where
  | jointLimit (step joint : ℕ) : FailReason
  | groundCollision (step : ℕ) : FailReason

/-- The dict {valid, reason, warnings} returned by validate_trajectory_path;
warnings carry the step indices flagged near a singularity. -/
structure ValidationResult where
  valid : Bool
  reason : Option FailReason
  warnings : List ℕ

/-- First joint of a step that leaves its limit interval in degrees, if
any: the inner loop of validate_trajectory_path returns at the first
violation. -/
def firstLimitBreach (degsF : α → α) (joint_angles : List α) : Option ℕ :=
  ((joint_angles.enum).find? fun p =>
    decide (degsF p.2 < (get_joint_limits p.1).1) ||
      decide ((get_joint_limits p.1).2 < degsF p.2)).map Prod.fst

/-- Step loop of validate_trajectory_path.  Per step: a joint-limit breach
aborts with a structured reason; otherwise the ground-collision proxy
(collides, abstracting the link-position height check) aborts with a
structured reason; otherwise singularity proximity (isSingular, abstracting
check_singularity of the Jacobian) only appends a warning and the loop
continues. -/
def validate_trajectory_path_aux (degsF : α → α)
    (collides isSingular : List α → Bool) :
    List (List α) → ℕ → List ℕ → ValidationResult
  | [], _, ws => ⟨true, none, ws⟩
  | step :: rest, i, ws =>
      match firstLimitBreach degsF step with
      | some j => ⟨false, some (FailReason.jointLimit i j), ws⟩
      | none =>
          if collides step then ⟨false, some (FailReason.groundCollision i), ws⟩
          else validate_trajectory_path_aux degsF collides isSingular rest (i + 1)
            (if isSingular step then ws ++ [i] else ws)

/-- validate_trajectory_path (main.py lines 1481-1533). -/
def validate_trajectory_path (degsF : α → α)
    (collides isSingular : List α → Bool) (trajectory : List (List α)) :
    ValidationResult :=
  validate_trajectory_path_aux degsF collides isSingular trajectory 0 []

/-- The first hard violation (joint-limit breach or ground collision) at or
after step i, together with its structured reason.  This is what decides
validity: singularity proximity never enters. -/
def firstHardViolation (degsF : α → α) (collides : List α → Bool) :
    List (List α) → ℕ → Option FailReason
  | [], _ => none
  | step :: rest, i =>
      match firstLimitBreach degsF step with
      | some j => some (FailReason.jointLimit i j)
      | none =>
          if collides step then some (FailReason.groundCollision i)
          else firstHardViolation degsF collides rest (i + 1)

theorem validate_aux_reason (degsF : α → α) (collides isSingular : List α → Bool) :
    ∀ (traj : List (List α)) (i : ℕ) (ws : List ℕ),
      (validate_trajectory_path_aux degsF collides isSingular traj i ws).reason =
        firstHardViolation degsF collides traj i ∧
      (validate_trajectory_path_aux degsF collides isSingular traj i ws).valid =
        (firstHardViolation degsF collides traj i).isNone := by
  intro traj
  induction traj with
  | nil => intro i ws; exact ⟨rfl, rfl⟩
  | cons step rest ih =>
      intro i ws
      rcases hb : firstLimitBreach degsF step with _ | j
      · by_cases hcol : collides step = true
        · constructor <;>
            simp [validate_trajectory_path_aux, firstHardViolation, hb, hcol]
        · have hcol' : collides step = false := by simpa using hcol
          obtain ⟨h1, h2⟩ := ih (i + 1) (if isSingular step then ws ++ [i] else ws)
          constructor <;>
            simp only [validate_trajectory_path_aux, firstHardViolation, hb, hcol',
              Bool.false_eq_true, if_false]
          · exact h1
          · exact h2
      · constructor <;>
          simp [validate_trajectory_path_aux, firstHardViolation, hb]

theorem firstHardViolation_none_iff (degsF : α → α) (collides : List α → Bool) :
    ∀ (traj : List (List α)) (i : ℕ),
      firstHardViolation degsF collides traj i = none ↔
        ∀ step ∈ traj, firstLimitBreach degsF step = none ∧ collides step = false := by
  intro traj
  induction traj with
  | nil => intro i; simp [firstHardViolation]
  | cons step rest ih =>
      intro i
      rcases hb : firstLimitBreach degsF step with _ | j
      · by_cases hcol : collides step = true
        · simp [firstHardViolation, hb, hcol]
        · have hcol' : collides step = false := by simpa using hcol
          simp only [firstHardViolation, hb, hcol', Bool.false_eq_true, if_false]
          rw [ih (i + 1)]
          constructor
          · intro hall
            intro t ht
            rcases List.mem_cons.mp ht with rfl | ht'
            · exact ⟨hb, hcol'⟩
            · exact hall t ht'
          · intro hall t ht
            exact hall t (List.mem_cons_of_mem _ ht)
      · simp [firstHardViolation, hb]

theorem validate_aux_warnings (degsF : α → α) (collides isSingular : List α → Bool) :
    ∀ (traj : List (List α)) (i : ℕ) (ws : List ℕ),
      (validate_trajectory_path_aux degsF collides isSingular traj i ws).valid = true →
        (validate_trajectory_path_aux degsF collides isSingular traj i ws).warnings =
          ws ++ ((traj.enumFrom i).filter (fun p => isSingular p.2)).map Prod.fst := by
  intro traj
  induction traj with
  | nil => intro i ws _; simp [validate_trajectory_path_aux]
  | cons step rest ih =>
      intro i ws hv
      rcases hb : firstLimitBreach degsF step with _ | j
      · by_cases hcol : collides step = true
        · rw [validate_trajectory_path_aux] at hv
          simp [hb, hcol] at hv
        · have hcol' : collides step = false := by simpa using hcol
          rw [validate_trajectory_path_aux] at hv ⊢
          simp only [hb, hcol', Bool.false_eq_true, if_false] at hv ⊢
          rw [ih (i + 1) _ hv, List.enumFrom_cons]
          by_cases hs : isSingular step = true
          · simp only [hs, if_true, List.filter_cons, List.map_cons]
            simp [List.append_assoc]
          · have hs' : isSingular step = false := by simpa using hs
            simp [hs', List.filter_cons]
      · rw [validate_trajectory_path_aux] at hv
        simp [hb] at hv

/-- Claim C9: validate_trajectory_path always returns a structured
{valid, reason, warnings} result; its valid flag and reason are independent
of the singularity oracle (singularity proximity only appends warnings and
never blocks); validity holds exactly when no step has a joint-limit breach
or a ground collision; an invalid result always carries a structured
reason; and on success the warnings are exactly the singular steps. -/
theorem validate_trajectory_structure (degsF : α → α)
    (collides s1 s2 : List α → Bool) (trajectory : List (List α)) :
    ((validate_trajectory_path degsF collides s1 trajectory).valid =
        (validate_trajectory_path degsF collides s2 trajectory).valid ∧
      (validate_trajectory_path degsF collides s1 trajectory).reason =
        (validate_trajectory_path degsF collides s2 trajectory).reason) ∧
    ((validate_trajectory_path degsF collides s1 trajectory).valid = true ↔
      ∀ step ∈ trajectory,
        firstLimitBreach degsF step = none ∧ collides step = false) ∧
    ((validate_trajectory_path degsF collides s1 trajectory).valid = false ↔
      (validate_trajectory_path degsF collides s1 trajectory).reason.isSome) ∧
    ((validate_trajectory_path degsF collides s1 trajectory).valid = true →
      (validate_trajectory_path degsF collides s1 trajectory).warnings =
        (trajectory.enum.filter (fun p => s1 p.2)).map Prod.fst) := by
  obtain ⟨hr1, hv1⟩ := validate_aux_reason degsF collides s1 trajectory 0 []
  obtain ⟨hr2, hv2⟩ := validate_aux_reason degsF collides s2 trajectory 0 []
  refine ⟨⟨?_, ?_⟩, ?_, ?_, ?_⟩
  · rw [validate_trajectory_path, validate_trajectory_path, hv1, hv2]
  · rw [validate_trajectory_path, validate_trajectory_path, hr1, hr2]
  · rw [validate_trajectory_path, hv1, Option.isNone_iff_eq_none]
    exact firstHardViolation_none_iff degsF collides trajectory 0
  · rw [validate_trajectory_path, hv1, hr1]
    cases firstHardViolation degsF collides trajectory 0 <;> simp
  · intro hv
    have := validate_aux_warnings degsF collides s1 trajectory 0 [] hv
    rw [validate_trajectory_path]
    simpa using this

end Kinematics

/-! ## Angle utilities (utils.py) -/

section Utils

variable {α : Type} [LinearOrderedField α]

/-- First loop of Utils.normalize_angle (utils.py lines 79-81): subtract the
range size while the angle exceeds the maximum.  The source loop diverges
for a non-positive range size, so the recursion is guarded by 0 < r; on
positive range sizes (the only ones the claims use) the behaviour is the
loop of the source.  Well-founded recursion on the ceiling of
(x - maxA) / r proves termination. -/
def normalizeSubLoop [FloorRing α] (maxA r x : α) : α :=
  if h : 0 < r ∧ maxA < x then normalizeSubLoop maxA r (x - r) else x
termination_by (⌈(x - maxA) / r⌉).toNat
decreasing_by
  obtain ⟨hr, hx⟩ := h
  have hy : 0 < (x - maxA) / r := div_pos (by linarith) hr
  have h1 : (x - r - maxA) / r = (x - maxA) / r - 1 := by
    rw [show x - r - maxA = (x - maxA) - r by ring, sub_div, div_self (ne_of_gt hr)]
  rw [h1, Int.ceil_sub_one]
  have hc : 0 < ⌈(x - maxA) / r⌉ := Int.ceil_pos.mpr hy
  omega

/-- Second loop of Utils.normalize_angle (lines 82-84): add the range size
while the angle is below the minimum. -/
def normalizeAddLoop [FloorRing α] (minA r x : α) : α :=
  if h : 0 < r ∧ x < minA then normalizeAddLoop minA r (x + r) else x
termination_by (⌈(minA - x) / r⌉).toNat
decreasing_by
  obtain ⟨hr, hx⟩ := h
  have hy : 0 < (minA - x) / r := div_pos (by linarith) hr
  have h1 : (minA - (x + r)) / r = (minA - x) / r - 1 := by
    rw [show minA - (x + r) = (minA - x) - r by ring, sub_div,
      div_self (ne_of_gt hr)]
  rw [h1, Int.ceil_sub_one]
  have hc : 0 < ⌈(minA - x) / r⌉ := Int.ceil_pos.mpr hy
  omega

/-- Utils.normalize_angle (utils.py lines 65-86): both while loops with
range_size = max_angle - min_angle. -/
def normalize_angle [FloorRing α] (angle minA maxA : α) : α :=
  normalizeAddLoop minA (maxA - minA) (normalizeSubLoop maxA (maxA - minA) angle)

theorem normalizeSubLoop_le [FloorRing α] (maxA r : α) (hr : 0 < r) (x : α) :
    normalizeSubLoop maxA r x ≤ maxA := by
  unfold normalizeSubLoop
  split
  next h => exact normalizeSubLoop_le maxA r hr (x - r)
  next h => exact le_of_not_lt (fun hx => h ⟨hr, hx⟩)
termination_by (⌈(x - maxA) / r⌉).toNat
decreasing_by
  rename_i h
  obtain ⟨hr2, hx⟩ := h
  have hy : 0 < (x - maxA) / r := div_pos (by linarith) hr2
  have h1 : (x - r - maxA) / r = (x - maxA) / r - 1 := by
    rw [show x - r - maxA = (x - maxA) - r by ring, sub_div,
      div_self (ne_of_gt hr2)]
  rw [h1, Int.ceil_sub_one]
  have hc : 0 < ⌈(x - maxA) / r⌉ := Int.ceil_pos.mpr hy
  omega

theorem normalizeAddLoop_ge [FloorRing α] (minA r : α) (hr : 0 < r) (x : α) :
    minA ≤ normalizeAddLoop minA r x := by
  unfold normalizeAddLoop
  split
  next h => exact normalizeAddLoop_ge minA r hr (x + r)
  next h => exact le_of_not_lt (fun hx => h ⟨hr, hx⟩)
termination_by (⌈(minA - x) / r⌉).toNat
decreasing_by
  rename_i h
  obtain ⟨hr2, hx⟩ := h
  have hy : 0 < (minA - x) / r := div_pos (by linarith) hr2
  have h1 : (minA - (x + r)) / r = (minA - x) / r - 1 := by
    rw [show minA - (x + r) = (minA - x) - r by ring, sub_div,
      div_self (ne_of_gt hr2)]
  rw [h1, Int.ceil_sub_one]
  have hc : 0 < ⌈(minA - x) / r⌉ := Int.ceil_pos.mpr hy
  omega

theorem normalizeAddLoop_le [FloorRing α] (minA r maxA : α) (hr : 0 < r)
    (hle : minA + r ≤ maxA) (x : α) (hx : x ≤ maxA) :
    normalizeAddLoop minA r x ≤ maxA := by
  unfold normalizeAddLoop
  split
  next h =>
    exact normalizeAddLoop_le minA r maxA hr hle (x + r)
      (by obtain ⟨_, hxm⟩ := h; linarith)
  next h => exact hx
termination_by (⌈(minA - x) / r⌉).toNat
decreasing_by
  rename_i h
  obtain ⟨hr2, hxm⟩ := h
  have hy : 0 < (minA - x) / r := div_pos (by linarith) hr2
  have h1 : (minA - (x + r)) / r = (minA - x) / r - 1 := by
    rw [show minA - (x + r) = (minA - x) - r by ring, sub_div,
      div_self (ne_of_gt hr2)]
  rw [h1, Int.ceil_sub_one]
  have hc : 0 < ⌈(minA - x) / r⌉ := Int.ceil_pos.mpr hy
  omega

/-- Utils.interpolate_angles (utils.py lines 282-300): shortest-path linear
interpolation, wrapping both the difference and the result into the default
range of normalize_angle; piV stands for the float constant np.pi. -/
def interpolate_angles [FloorRing α] (piV angle1 angle2 t : α) : α :=
  normalize_angle (angle1 + t * normalize_angle (angle2 - angle1)
    (-piV) piV) (-piV) piV

end Utils

/-- Claim C10: on the default range (-pi, pi), normalize_angle is total
(the two loops are well-founded, as certified by the definitions above) and
lands in the closed interval [-pi, pi]; consequently interpolate_angles
does too, for all real arguments. -/
theorem normalize_angle_default_range :
    (∀ angle : ℝ,
      normalize_angle angle (-Real.pi) Real.pi ∈ Set.Icc (-Real.pi) Real.pi) ∧
    (∀ angle1 angle2 t : ℝ,
      interpolate_angles Real.pi angle1 angle2 t ∈ Set.Icc (-Real.pi) Real.pi) := by
  have hpi := Real.pi_pos
  have hr : (0 : ℝ) < Real.pi - -Real.pi := by linarith
  have key : ∀ angle : ℝ,
      normalize_angle angle (-Real.pi) Real.pi ∈ Set.Icc (-Real.pi) Real.pi := by
    intro angle
    rw [normalize_angle]
    refine Set.mem_Icc.mpr ⟨?_, ?_⟩
    · exact normalizeAddLoop_ge _ _ hr _
    · exact normalizeAddLoop_le _ _ _ hr (by linarith) _
        (normalizeSubLoop_le _ _ hr _)
  refine ⟨key, fun angle1 angle2 t => ?_⟩
  rw [interpolate_angles]
  exact key _

end Robotics
